import Mathlib

/-!
Verification of the prediction-market core of the PredictionMarkets
repository.

This file is a shallow embedding of
`market_agents/environments/mechanisms/prediction_markets.py` (the
`MarketState` entity and the `PredictionMarketMechanism` reducer) and of
`market_agents/orchestrators/prediction_markets_orchestrator.py` (the round
orchestrator), together with theorems about the embedded definitions.

Modelling conventions:
* Python floats are modelled as rationals (`ℚ`).
* Python `dict[str, V]` values are modelled as insertion-ordered association
  lists `List (String × V)` with lookup/update operations mirroring dict
  semantics (`dictGetD`, `dictSet`, ...).
* A Python method that can raise is modelled as a function into
  `Except String`.  A method that mutates `self` and can raise is modelled
  as a function returning the mutated state together with the outcome, so
  that mutations performed before a raise are kept, as in Python.
* `random.choice` is modelled by an explicit oracle
  `choice : List String → String`.
-/

namespace PredictionMarkets

/-- Python dict lookup with default, `d.get(k, v0)`. -/
def dictGetD {β : Type} : List (String × β) → String → β → β
  | [], _, v0 => v0
  | (k', v) :: rest, k, v0 => if k' = k then v else dictGetD rest k v0

/-- Python dict lookup, `d[k]`, returning `none` where Python raises
`KeyError`. -/
def dictGet? {β : Type} : List (String × β) → String → Option β
  | [], _ => none
  | (k', v) :: rest, k => if k' = k then some v else dictGet? rest k

/-- Python membership test `k in d` on a dict. -/
def dictContains {β : Type} (d : List (String × β)) (k : String) : Bool :=
  (dictGet? d k).isSome

/-- Python dict update `d[k] = v`: replaces the value in place if the key is
present, otherwise appends the new entry. -/
def dictSet {β : Type} : List (String × β) → String → β → List (String × β)
  | [], k, v => [(k, v)]
  | (k', v') :: rest, k, v =>
    if k' = k then (k, v) :: rest else (k', v') :: dictSet rest k v

/-- Python `d.values()`. -/
def dictValues {β : Type} (d : List (String × β)) : List β := d.map Prod.snd

/-- Python enum `MarketType` (prediction_markets.py lines 63-66). -/
inductive MarketType
  | BINARY
  | SCALAR
  | CATEGORICAL
  deriving DecidableEq, Repr

/-- Python enum `ActionType` (lines 68-70). -/
inductive ActionType
  | BET
  | HOLD
  deriving DecidableEq, Repr

/-- Value carried by the `outcome` field of a bet,
`Optional[Union[BinaryOutcome, float, str]]`: a member of the `BinaryOutcome`
string-enum (lines 72-74), a float, or a plain string. -/
inductive BetOutcome
  | yes
  | no
  | num (q : ℚ)
  | str (s : String)
  deriving DecidableEq, Repr

/-- Key used by `update_with_bet` for a non-scalar market (line 286):
`bet.outcome.value if hasattr(bet.outcome, 'value') else bet.outcome`,
followed by the membership test against the string options.  `BinaryOutcome`
members yield their string value; a float or `None` can never match a string
option, which is modelled by `none`. -/
def betOutcomeKey : Option BetOutcome → Option String
  | some BetOutcome.yes => some "Yes"
  | some BetOutcome.no => some "No"
  | some (BetOutcome.str s) => some s
  | _ => none

/-- Python `float(x)` as used by the SCALAR branches (lines 279 and 314).
Only genuinely numeric outcomes convert; enum members, strings and `None`
are treated as failing (the SCALAR branches are unreachable for a validated
`MarketState`, see `mkMarketState_market_type`). -/
def betOutcomeFloat : Option BetOutcome → Option ℚ
  | some (BetOutcome.num q) => some q
  | _ => none

/-- The internal bet model `PredictionBet` (lines 76-182): the action fields
of `PredictionMarketAction` plus the market `event_id`. -/
structure PredictionBet where
  market_type : MarketType
  action_type : ActionType
  outcome : Option BetOutcome
  stake : Option ℚ
  price : Option ℚ
  event_id : String
  deriving DecidableEq, Repr

/-- State of one prediction market, `MarketState` (lines 221-260). -/
structure MarketState where
  event_id : String
  market_type : MarketType
  question : String
  options : Option (List String)
  range_min : Option ℚ
  range_max : Option ℚ
  total_bets : List (String × ℚ)
  current_prices : List (String × ℚ)
  total_liquidity : ℚ
  resolved : Bool
  outcome : Option BetOutcome
  deriving DecidableEq, Repr

/-- Pydantic construction of a `MarketState`: the field values plus the two
validators.  `validate_market_type` (lines 262-266) rejects every market
type other than BINARY and CATEGORICAL; `validate_options` (lines 268-274)
rejects a missing or empty options list for BINARY/CATEGORICAL markets. -/
def mkMarketState (event_id : String) (market_type : MarketType)
    (question : String) (options : Option (List String))
    (range_min range_max : Option ℚ)
    (total_bets current_prices : List (String × ℚ)) (total_liquidity : ℚ)
    (resolved : Bool) (outcome : Option BetOutcome) :
    Except String MarketState :=
  if market_type ≠ MarketType.BINARY ∧ market_type ≠ MarketType.CATEGORICAL then
    Except.error "ValueError: Invalid market type"
  else if (market_type = MarketType.BINARY ∨ market_type = MarketType.CATEGORICAL)
      ∧ (options = none ∨ options = some []) then
    Except.error "ValueError: markets require options list"
  else
    Except.ok ⟨event_id, market_type, question, options, range_min, range_max,
      total_bets, current_prices, total_liquidity, resolved, outcome⟩

/-- Python dict comprehension over the declared options, rebuilding
`current_prices` (lines 303-306 and 308-309): keys are inserted in option
order, a duplicate option overwrites its earlier entry. -/
def dictComprehension (opts : List String) (f : String → ℚ) :
    List (String × ℚ) :=
  opts.foldl (fun d o => dictSet d o (f o)) []

/-- Method `MarketState.update_with_bet` (lines 276-309).  A raise is
modelled by `Except.error`; the mutation of `self` by returning the updated
state.  The SCALAR branch (lines 278-284 and 296-299) is kept for fidelity
but is unreachable for a `MarketState` built by `mkMarketState`. -/
def update_with_bet (ms : MarketState) (bet : PredictionBet) :
    Except String MarketState :=
  if ms.market_type = MarketType.SCALAR then
    match betOutcomeFloat bet.outcome, ms.range_min, ms.range_max with
    | some q, some lo, some hi =>
      if lo ≤ q ∧ q ≤ hi then
        match bet.stake with
        | none => Except.error "TypeError: unsupported operand for +"
        | some s =>
          let key := toString q
          let tb := dictSet ms.total_bets key (dictGetD ms.total_bets key 0 + s)
          let total := (dictValues tb).sum
          let cp := tb.foldl (fun d p => dictSet d p.1 (p.2 / total))
            ms.current_prices
          Except.ok { ms with total_bets := tb,
                              total_liquidity := ms.total_liquidity + s,
                              current_prices := cp }
      else Except.error "ValueError: Outcome is outside valid range"
    | _, _, _ => Except.error "TypeError: bad operand for scalar comparison"
  else
    match ms.options with
    | none => Except.error "TypeError: argument of type NoneType is not iterable"
    | some opts =>
      match betOutcomeKey bet.outcome with
      | some out =>
        if out ∈ opts then
          match bet.stake with
          | none => Except.error "TypeError: unsupported operand for +"
          | some s =>
            let tb := dictSet ms.total_bets out (dictGetD ms.total_bets out 0 + s)
            let total := (opts.map (fun o => dictGetD tb o 0)).sum
            let cp :=
              if total > 0 then
                dictComprehension opts (fun o => dictGetD tb o 0 / total)
              else
                dictComprehension opts (fun _ => 1 / (opts.length : ℚ))
            Except.ok { ms with total_bets := tb,
                                total_liquidity := ms.total_liquidity + s,
                                current_prices := cp }
        else Except.error "ValueError: Outcome is not a valid option"
      | none => Except.error "ValueError: Outcome is not a valid option"

/-- Method `MarketState.resolve` (lines 311-321).  The method validates the
proposed outcome and then unconditionally overwrites `resolved` and
`outcome`; there is no guard on an already-resolved market. -/
def resolveMarket (ms : MarketState) (oc : BetOutcome) :
    Except String MarketState :=
  if ms.market_type = MarketType.SCALAR then
    match betOutcomeFloat (some oc), ms.range_min, ms.range_max with
    | some q, some lo, some hi =>
      if lo ≤ q ∧ q ≤ hi then
        Except.ok { ms with resolved := true, outcome := some oc }
      else Except.error "ValueError: Resolution outcome is outside valid range"
    | _, _, _ => Except.error "TypeError: bad operand for scalar comparison"
  else
    match ms.options with
    | none => Except.error "TypeError: argument of type NoneType is not iterable"
    | some opts =>
      match betOutcomeKey (some oc) with
      | some out =>
        if out ∈ opts then
          Except.ok { ms with resolved := true, outcome := some oc }
        else Except.error "ValueError: Resolution outcome is not a valid option"
      | none => Except.error "ValueError: Resolution outcome is not a valid option"

/-- Configuration dict handed to `initialize_market`; exactly the keys read
at lines 399-412. -/
structure MarketConfig where
  name : Option String
  market_type : String
  market : String
  outcomes : List String
  initial_prices : List (String × ℚ)
  initial_liquidity : Option ℚ
  deriving DecidableEq, Repr

/-- Result of one `step` call, the parts of `EnvironmentStep` the claims are
about: the `done` flag, the agent ids that received a local observation, the
round recorded in `info`, and the global market snapshot. -/
structure StepResult where
  done : Bool
  observations : List String
  round : Nat
  market_states : List (String × MarketState)
  deriving DecidableEq, Repr

/-- State of `PredictionMarketMechanism` (lines 388-397). -/
structure Mechanism where
  max_rounds : Nat
  current_round : Nat
  markets : List (String × MarketState)
  initial_liquidity : ℚ
  round_summaries : List (List (String × PredictionBet))
  market_config : Option MarketConfig
  last_action : Option (List (String × PredictionBet))
  last_step : Option StepResult
  deriving DecidableEq, Repr

/-- Python `str.upper()` for ASCII, as used at line 402.  Implemented by a
structural map over the characters (the recursion inside the core
`String.toUpper` does not reduce in the kernel; for the ASCII configuration
strings involved the two agree). -/
def pyUpper (s : String) : String := String.mk (s.data.map Char.toUpper)

/-- Python `MarketType(s.upper())` (line 402). -/
def parseMarketType (s : String) : Except String MarketType :=
  if pyUpper s = "BINARY" then Except.ok MarketType.BINARY
  else if pyUpper s = "SCALAR" then Except.ok MarketType.SCALAR
  else if pyUpper s = "CATEGORICAL" then Except.ok MarketType.CATEGORICAL
  else Except.error "ValueError: not a valid MarketType"

/-- Method `PredictionMarketMechanism.initialize_market` (lines 399-412).
The new market is stored under the configuration name, default
`default_market` — not under the event id of the bet that triggered the
call.  Its prices are the configured `initial_prices` and its `total_bets`
dict is empty. -/
def initialize_market (m : Mechanism) (cfg : MarketConfig) :
    Except String Mechanism :=
  match parseMarketType cfg.market_type with
  | Except.error e => Except.error e
  | Except.ok mt =>
    match mkMarketState (cfg.name.getD "default_market") mt cfg.market
        (some cfg.outcomes) none none [] cfg.initial_prices
        (cfg.initial_liquidity.getD m.initial_liquidity) false none with
    | Except.error e => Except.error e
    | Except.ok ms =>
      Except.ok
        { m with markets := dictSet m.markets (cfg.name.getD "default_market") ms }

/-- Lines 443-447 of `step`: make sure the referenced market exists, lazily
initializing it from the mechanism configuration when one is present and
raising `ValueError` otherwise.  Note that `initialize_market` stores the
new market under the configuration name, not under `eid`. -/
def ensureMarket (m : Mechanism) (eid : String) : Except String Mechanism :=
  if dictContains m.markets eid then Except.ok m
  else
    match m.market_config with
    | some cfg => initialize_market m cfg
    | none => Except.error "ValueError: No market configuration found for event"

/-- Processing of a single action inside the bet loop of `step` (lines
442-448).  Returns the mutated mechanism together with the pending exception
if one was raised; mutations performed before the raise (in particular a
market created by `initialize_market`) are kept.  The lookup
`self.markets[bet.event_id]` after the lazy initialization can raise
`KeyError` because the new market was stored under the configuration
name. -/
def betStep (m : Mechanism) (bet : PredictionBet) : Mechanism × Option String :=
  if bet.action_type = ActionType.HOLD then (m, none)
  else
    match ensureMarket m bet.event_id with
    | Except.error e => (m, some e)
    | Except.ok m1 =>
      match dictGet? m1.markets bet.event_id with
      | none => (m1, some "KeyError")
      | some ms =>
        match update_with_bet ms bet with
        | Except.error e => (m1, some e)
        | Except.ok ms' =>
          ({ m1 with markets := dictSet m1.markets bet.event_id ms' }, none)

/-- Bet-processing loop of `step` (lines 437-448).  `acc` is the
`round_actions` dict being built (`round_actions[agent_id] = bet.dict()` runs
before the bet is applied); when an exception escapes the loop the dict is a
discarded local variable, which the `Except.error` result reflects. -/
def processBets :
    Mechanism → List (String × PredictionBet) → List (String × PredictionBet) →
    Mechanism × Except String (List (String × PredictionBet))
  | m, [], acc => (m, Except.ok acc)
  | m, (aid, bet) :: rest, acc =>
    match betStep m bet with
    | (m', some e) => (m', Except.error e)
    | (m', none) => processBets m' rest (dictSet acc aid bet)

/-- End-of-run resolution of one market (lines 458-461): a market that is
already resolved is skipped; otherwise `random.choice(market.options)`,
modelled by the `choice` oracle, is recorded as the outcome. -/
def resolveMarketEntry (choice : List String → String) (ms : MarketState) :
    MarketState × Option String :=
  if ms.resolved then (ms, none)
  else
    match ms.options with
    | none => (ms, some "TypeError: random.choice on None")
    | some [] => (ms, some "IndexError: list index out of range")
    | some (o :: os) =>
      ({ ms with resolved := true,
                 outcome := some (BetOutcome.str (choice (o :: os))) }, none)

/-- End-of-run resolution loop over all markets (lines 457-461), aborting at
the first raising entry while keeping earlier mutations. -/
def resolveEntries (choice : List String → String) :
    List (String × MarketState) → List (String × MarketState) × Option String
  | [] => ([], none)
  | (k, ms) :: rest =>
    match resolveMarketEntry choice ms with
    | (ms', some e) => ((k, ms') :: rest, some e)
    | (ms', none) =>
      match resolveEntries choice rest with
      | (rest', err) => ((k, ms') :: rest', err)

/-- Helper `_create_observations` (lines 414-430): one local observation per
agent key of `last_action`, all sharing the same market snapshot; the agent
ids are what the claims need. -/
def createObservations (m : Mechanism) : List String :=
  match m.last_action with
  | none => []
  | some batch => batch.map Prod.fst

/-- Tail of `PredictionMarketMechanism.step` (lines 452-480), run on the
mechanism state `m3` reached after the bet loop and the round-summary
append: create the observations, compute `done`, resolve every market at the
round limit, and assemble the `EnvironmentStep`. -/
def stepFinish (choice : List String → String) (m3 : Mechanism) :
    Mechanism × Except String StepResult :=
  match (if m3.current_round ≥ m3.max_rounds then resolveEntries choice m3.markets
         else (m3.markets, none)) with
  | (mkts, some e) => ({ m3 with markets := mkts }, Except.error e)
  | (mkts, none) =>
    ({ m3 with markets := mkts,
               last_step := some
                 { done := decide (m3.current_round ≥ m3.max_rounds),
                   observations := createObservations m3,
                   round := m3.current_round,
                   market_states := mkts } },
     Except.ok
       { done := decide (m3.current_round ≥ m3.max_rounds),
         observations := createObservations m3,
         round := m3.current_round,
         market_states := mkts })

/-- Method `PredictionMarketMechanism.step` (lines 432-480).  Returns the
mechanism after the call paired with the returned `EnvironmentStep`, or with
the exception that escaped; Python keeps all mutations made before a
raise. -/
def stepMech (choice : List String → String) (m : Mechanism)
    (batch : List (String × PredictionBet)) :
    Mechanism × Except String StepResult :=
  let m1 := { m with current_round := m.current_round + 1,
                     last_action := some batch }
  match processBets m1 batch [] with
  | (m2, Except.error e) => (m2, Except.error e)
  | (m2, Except.ok roundActions) =>
    stepFinish choice
      { m2 with round_summaries := m2.round_summaries ++ [roundActions] }

/-- Repeated `step` calls on one mechanism, one call per batch; result is
the mechanism after the last call paired with the last call's outcome. -/
def runSteps (choice : List String → String) :
    Mechanism → List (List (String × PredictionBet)) →
    Mechanism × Except String StepResult
  | m, [] => (m, Except.error "no step call was made")
  | m, [b] => stepMech choice m b
  | m, b :: b2 :: rest => runSteps choice (stepMech choice m b).1 (b2 :: rest)

/-- Parsed JSON content of one agent response, as read by
`_process_agent_actions` (orchestrator lines 178-183): the dict values under
the keys `action_type`, `outcome`, `stake`, `price`.  Numeric payloads are
already rationals; a payload that `float()` cannot convert would raise
inside the same `try` block and end in the same fallback path as every other
inner failure. -/
structure Content where
  action_type : Option String
  outcome : Option String
  stake : Option ℚ
  price : Option ℚ
  deriving DecidableEq, Repr

instance {α β : Type} [DecidableEq α] [DecidableEq β] :
    DecidableEq (Except α β) := fun x y =>
  match x, y with
  | Except.error a, Except.error b =>
    if h : a = b then Decidable.isTrue (congrArg Except.error h)
    else Decidable.isFalse (fun hc => h (Except.error.inj hc))
  | Except.ok a, Except.ok b =>
    if h : a = b then Decidable.isTrue (congrArg Except.ok h)
    else Decidable.isFalse (fun hc => h (Except.ok.inj hc))
  | Except.error _, Except.ok _ => Decidable.isFalse (fun hc => Except.noConfusion hc)
  | Except.ok _, Except.error _ => Decidable.isFalse (fun hc => Except.noConfusion hc)

/-- Raw result of one agent decision request, one slot of the list returned
by the parallel action phase.  A slot is `none` when the request failed and
yielded no object at all; `jsonObj` when `action.json_object.object` is a
truthy dict; `strContent` when the content must be JSON-parsed from
`action.str_content` (the parse may fail, or may yield a falsy value,
modelled by `Except`/`Option`); `empty` when the response carries neither. -/
inductive RawOutput
  | jsonObj (c : Content)
  | strContent (parsed : Except String (Option Content))
  | empty
  deriving DecidableEq, Repr

/-- Content extraction at the top of the per-agent body of
`_process_agent_actions` (orchestrator lines 168-172); an exception raised
here (a failing `json.loads`) is caught by the outer handler of the loop
body. -/
def extractContent : Option RawOutput → Except String (Option Content)
  | none => Except.ok none
  | some (RawOutput.jsonObj c) => Except.ok (some c)
  | some (RawOutput.strContent p) => p
  | some RawOutput.empty => Except.ok none

/-- Python `ActionType(x)` enum lookup (orchestrator line 186). -/
def parseActionTypeStr : Option String → Except String ActionType
  | some "BET" => Except.ok ActionType.BET
  | some "HOLD" => Except.ok ActionType.HOLD
  | _ => Except.error "ValueError: not a valid ActionType"

/-- Inner action-construction block of `_process_agent_actions` (orchestrator
lines 177-196).  In the source as it stands this block can never succeed:
the keyword arguments are evaluated left to right, the `Outcome` name used
at line 187 is imported from `prediction_markets.py` but is not defined
there (so a truthy outcome raises `NameError`), and the
`PredictionMarketAction` call at lines 185-190 omits the required
`market_type` field, which pydantic rejects.  The `Except.ok` branch of the
callers is therefore dead code, kept for structural fidelity; a successful
construction would be wrapped by `from_market_action` with
`event_id = self.config.name` (lines 192-196). -/
def buildMarketAction (cfgName : String) (c : Content) :
    Except String PredictionBet :=
  match parseActionTypeStr c.action_type with
  | Except.error e => Except.error e
  | Except.ok _ =>
    match c.outcome with
    | some _ => Except.error "NameError: name Outcome is not defined"
    | none =>
      let _ := cfgName
      Except.error "ValidationError: market_type field required"

/-- Processing of one agent inside the loop of `_process_agent_actions`
(orchestrator lines 166-220).  `Except.ok none`: no entry is added for this
agent (absent or falsy content — the `if content:` test at line 176);
`Except.ok (some bet)`: a mapped entry is added; `Except.error`: an
exception escapes the whole loop.  Both `except` handlers (lines 199-207 and
212-220) build their HOLD fallback as
`PredictionMarketAction(action_type=ActionType.HOLD)`, again omitting the
required `market_type`, so the fallback construction itself raises and the
exception escapes `_process_agent_actions`. -/
def processSlot (cfgName : String) (slot : Option RawOutput) :
    Except String (Option PredictionBet) :=
  match extractContent slot with
  | Except.error _ => Except.error "ValidationError: market_type field required"
  | Except.ok none => Except.ok none
  | Except.ok (some c) =>
    match buildMarketAction cfgName c with
    | Except.ok bet => Except.ok (some bet)
    | Except.error _ => Except.error "ValidationError: market_type field required"

/-- Loop of `_process_agent_actions` building the `agent_actions` dict in
roster order. -/
def processAgentActionsGo (cfgName : String) :
    List (String × Option RawOutput) → List (String × PredictionBet) →
    Except String (List (String × PredictionBet))
  | [], acc => Except.ok acc
  | (aid, slot) :: rest, acc =>
    match processSlot cfgName slot with
    | Except.error e => Except.error e
    | Except.ok none => processAgentActionsGo cfgName rest acc
    | Except.ok (some bet) =>
      processAgentActionsGo cfgName rest (dictSet acc aid bet)

/-- Method `_process_agent_actions` (orchestrator lines 162-222): iterate
`zip(self.agents, actions or [])` in roster order (`zip` truncates at the
shorter list) and build the per-agent action dict. -/
def processAgentActions (agents : List String)
    (actions : Option (List (Option RawOutput))) (cfgName : String) :
    Except String (List (String × PredictionBet)) :=
  processAgentActionsGo cfgName (agents.zip (actions.getD [])) []

/-- Modelled from the spec: the parallel Cognitive Phase Runner
(`run_parallel_action` of `ParallelCognitiveProcessor`, which is not under
src/) returns a sequence of results aligned by roster position — result i
corresponds to agent i regardless of completion order (spec section 4.3).
`arrivals` lists the (roster index, result) completion events in arrival
order; the runner places each result into its roster slot, and a slot with
no completion event stays `none` (a failed request). -/
def alignByRoster (n : Nat) (arrivals : List (Nat × Option RawOutput)) :
    List (Option RawOutput) :=
  (List.range n).map
    (fun i => ((arrivals.find? (fun p => p.1 = i)).map Prod.snd).getD none)

/-- Method `_run_action_phase` (orchestrator lines 147-160): build the
action batch from the roster-aligned outputs, then step the environment; an
exception from either part propagates to `run_market_round`. -/
def run_action_phase (choice : List String → String) (m : Mechanism)
    (agents : List String) (cfgName : String)
    (actions : Option (List (Option RawOutput))) :
    Except String (Mechanism × StepResult) :=
  match processAgentActions agents actions cfgName with
  | Except.error e => Except.error e
  | Except.ok batch =>
    match stepMech choice m batch with
    | (m', Except.ok res) => Except.ok (m', res)
    | (_, Except.error e) => Except.error e

/-- Modelled from the spec: outcomes of the three insert operations of the
external storage collaborator (`OrchestrationDataInserter` /
`StorageService`, not under src/) — `insertActions`,
`insertEnvironmentState`, `insertTrades` (spec section 6). -/
structure StorageOps where
  insertActions : Except String Unit
  insertEnvState : Except String Unit
  insertTrades : Except String Unit
  deriving DecidableEq, Repr

/-- Method `process_round_results` (orchestrator lines 273-337).
`hasActionsData` is whether any agent has a truthy `last_action` (lines
282-294); `hasTrades` is whether the step result carries a `trades`
attribute (lines 316-330).  The `except` handler at lines 334-337 logs the
failure and then re-raises it (`raise`), so a storage error propagates to
the caller; `Except` bind models exactly that. -/
def process_round_results (ops : StorageOps) (hasActionsData hasTrades : Bool) :
    Except String Unit :=
  match (if hasActionsData then ops.insertActions else Except.ok ()) with
  | Except.error e => Except.error e
  | Except.ok _ =>
    match ops.insertEnvState with
    | Except.error e => Except.error e
    | Except.ok _ =>
      match (if hasTrades then ops.insertTrades else Except.ok ()) with
      | Except.error e => Except.error e
      | Except.ok _ => Except.ok ()

/-- Method `run_market_round` (orchestrator lines 109-130): run perception,
action, reflection and persistence in order inside a `try` whose handler
logs and re-raises (lines 125-128).  The reflection phase swallows its own
errors (`_run_reflection_phase`, lines 224-249, catches without re-raising),
so only the other three phases can make the round fail. -/
def run_market_round (perception : Except String Unit)
    (actionPhase : Except String (Mechanism × StepResult))
    (reflection : Except String Unit) (persist : Except String Unit) :
    Except String Unit :=
  match perception with
  | Except.error e => Except.error e
  | Except.ok _ =>
    match actionPhase with
    | Except.error e => Except.error e
    | Except.ok _ =>
      let _ := reflection
      match persist with
      | Except.error e => Except.error e
      | Except.ok _ => Except.ok ()

/-- Validity invariant maintained for every market held by the mechanism: a
declared non-empty options list, and, when the market is resolved, a
recorded outcome that is one of its options. -/
def MarketInv (ms : MarketState) : Prop :=
  ∃ l, ms.options = some l ∧ l ≠ [] ∧
    (ms.resolved = true →
      ∃ s, ms.outcome = some (BetOutcome.str s) ∧ s ∈ l)

/-- The recorded outcome of a market is one of its declared options. -/
def outcomeInOptions (ms : MarketState) : Prop :=
  ∃ s l, ms.outcome = some (BetOutcome.str s) ∧ ms.options = some l ∧ s ∈ l

/-- The bet-processing helpers mutate only the `markets` field of the
mechanism. -/
def SameExceptMarkets (m m' : Mechanism) : Prop :=
  m'.max_rounds = m.max_rounds ∧ m'.current_round = m.current_round ∧
  m'.initial_liquidity = m.initial_liquidity ∧
  m'.round_summaries = m.round_summaries ∧
  m'.market_config = m.market_config ∧
  m'.last_action = m.last_action ∧ m'.last_step = m.last_step

/-- Every market held by the mechanism satisfies the validity invariant. -/
def MechInv (m : Mechanism) : Prop := ∀ p ∈ m.markets, MarketInv p.2

/-- Market used by the C1 counterexample and witness. -/
def c1market : MarketState :=
  ⟨"m1", MarketType.BINARY, "Will it rain?", some ["Yes", "No"], none, none,
   [], [("Yes", 1/2), ("No", 1/2)], 0, false, none⟩

def c1mech : Mechanism :=
  ⟨10, 0, [("m1", c1market)], 1000, [], none, none, none⟩

def c1betYes : PredictionBet :=
  ⟨MarketType.BINARY, ActionType.BET, some BetOutcome.yes, some 10,
   some (1/2), "m1"⟩

def c1betBad : PredictionBet :=
  ⟨MarketType.CATEGORICAL, ActionType.BET, some (BetOutcome.str "Maybe"),
   some 10, some (1/2), "m1"⟩

def c1betNo : PredictionBet :=
  ⟨MarketType.BINARY, ActionType.BET, some BetOutcome.no, some 5,
   some (1/2), "m1"⟩

def c1choice : List String → String := fun l => l.headD ""

def c1batch : List (String × PredictionBet) :=
  [("a1", c1betYes), ("a2", c1betBad), ("a3", c1betNo)]

def c2market : MarketState :=
  ⟨"m1", MarketType.BINARY, "Will it rain?", some ["Yes", "No"], none, none,
   [], [("Yes", 1/2), ("No", 1/2)], 0, false, none⟩

def c2mech : Mechanism :=
  ⟨3, 0, [("m1", c2market)], 1000, [], none, none, none⟩

def c2choice : List String → String := fun l => l.headD ""

def c2arr1 : List (Nat × Option RawOutput) :=
  [(0, none), (1, some RawOutput.empty)]

def c2arr2 : List (Nat × Option RawOutput) :=
  [(1, some RawOutput.empty), (0, none)]

def c3choice : List String → String := fun l => l.headD ""

def c3market : MarketState :=
  ⟨"m1", MarketType.BINARY, "Will it rain?", some ["Yes", "No"], none, none,
   [], [("Yes", 1/2), ("No", 1/2)], 0, false, none⟩

def c3mech : Mechanism :=
  ⟨1, 0, [("m1", c3market)], 1000, [], none, none, none⟩

def c3res : StepResult :=
  ⟨true, [], 1,
   [("m1", { c3market with resolved := true,
                           outcome := some (BetOutcome.str "Yes") })]⟩

def c4market : MarketState :=
  ⟨"m1", MarketType.BINARY, "Will it rain?", some ["Yes", "No"], none, none,
   [], [("Yes", 1/2), ("No", 1/2)], 0, false, none⟩

def c4bet : PredictionBet :=
  ⟨MarketType.BINARY, ActionType.BET, some BetOutcome.yes, some 40,
   some (1/2), "m1"⟩

def c4result : MarketState :=
  ((update_with_bet c4market c4bet).toOption).getD c4market

def c5market : MarketState :=
  ⟨"m1", MarketType.BINARY, "Will it rain?", some ["Yes", "No"], none, none,
   [], [], 0, false, none⟩

def c5mech : Mechanism :=
  ⟨1, 1, [("m1", c5market)], 1000, [], none, none, none⟩

def c5res : StepResult := ⟨true, [], 1, []⟩

def c5ops : StorageOps :=
  ⟨Except.ok (), Except.error "database connection lost", Except.ok ()⟩

def c6content : Content := ⟨some "BET", some "Yes", some 50, some (7/10)⟩

def c7market : MarketState :=
  ⟨"m1", MarketType.BINARY, "Will it rain?", some ["Yes", "No"], none, none,
   [], [], 0, false, none⟩

def c7once : MarketState :=
  { c7market with resolved := true, outcome := some (BetOutcome.str "Yes") }

def c7twice : MarketState :=
  { c7market with resolved := true, outcome := some (BetOutcome.str "No") }

def c7wchoice : List String → String := fun l => l.headD ""

def c7wresolved : MarketState :=
  ⟨"m2", MarketType.BINARY, "Q2", some ["Yes", "No"], none, none, [], [], 0,
   true, some (BetOutcome.str "Yes")⟩

def c7wm0 : MarketState :=
  ⟨"m3", MarketType.BINARY, "Q3", some ["Yes", "No"], none, none, [], [], 0,
   false, none⟩

def c7wonce : MarketState :=
  { c7wm0 with resolved := true, outcome := some (BetOutcome.str "Yes") }

def c8cfg : MarketConfig :=
  ⟨some "market_a", "binary", "Will it rain?", ["Yes", "No"],
   [("Yes", 1/2), ("No", 1/2)], none⟩

def c8mech : Mechanism :=
  ⟨5, 0, [], 1000, [], some c8cfg, none, none⟩

def c8mechNoCfg : Mechanism :=
  ⟨5, 0, [], 1000, [], none, none, none⟩

def c8bet : PredictionBet :=
  ⟨MarketType.BINARY, ActionType.BET, some BetOutcome.yes, some 10,
   some (1/2), "market_b"⟩

def c8choice : List String → String := fun l => l.headD ""

def c9cfg : MarketConfig :=
  ⟨some "market_a", "binary", "Will it rain?", ["Yes", "No"],
   [("Yes", 7/10), ("No", 3/10)], none⟩

def c9mech : Mechanism :=
  ⟨5, 0, [], 1000, [], some c9cfg, none, none⟩

def c9market : MarketState :=
  ⟨"market_a", MarketType.BINARY, "Will it rain?", some ["Yes", "No"], none,
   none, [], [("Yes", 7/10), ("No", 3/10)], 1000, false, none⟩

def c10market : MarketState :=
  ⟨"m1", MarketType.BINARY, "Will it rain?", some ["Yes", "No"], none, none,
   [], [], 0, false, none⟩

/-! ### Lemmas and claim theorems -/

theorem dictGetD_dictSet_self {β : Type} (d : List (String × β)) (k : String)
    (v v0 : β) : dictGetD (dictSet d k v) k v0 = v := by
  induction d with
  | nil => simp [dictSet, dictGetD]
  | cons p rest ih =>
    by_cases h : p.1 = k
    · simp [dictSet, dictGetD, h]
    · simp [dictSet, dictGetD, h, ih]

theorem dictGetD_dictSet_ne {β : Type} (d : List (String × β)) (k k2 : String)
    (v v0 : β) (h : k2 ≠ k) :
    dictGetD (dictSet d k v) k2 v0 = dictGetD d k2 v0 := by
  have hk : ¬ k = k2 := fun hc => h hc.symm
  induction d with
  | nil => simp [dictSet, dictGetD, hk]
  | cons p rest ih =>
    by_cases hp : p.1 = k
    · have hp2 : ¬ p.1 = k2 := by rw [hp]; exact hk
      simp [dictSet, dictGetD, hp, hk, hp2]
    · simp only [dictSet, hp, if_false, dictGetD]
      by_cases hp2 : p.1 = k2 <;> simp [hp2, ih]

theorem mem_dictSet {β : Type} (d : List (String × β)) (k : String) (v : β)
    (p : String × β) (hp : p ∈ dictSet d k v) : p = (k, v) ∨ p ∈ d := by
  induction d with
  | nil => simpa [dictSet] using hp
  | cons q rest ih =>
    by_cases hq : q.1 = k
    · simp only [dictSet, hq, if_true] at hp
      rcases List.mem_cons.mp hp with h | h
      · exact Or.inl h
      · exact Or.inr (List.mem_cons_of_mem _ h)
    · simp only [dictSet, hq, if_false] at hp
      rcases List.mem_cons.mp hp with h | h
      · exact Or.inr (h ▸ List.mem_cons_self _ _)
      · rcases ih h with h' | h'
        · exact Or.inl h'
        · exact Or.inr (List.mem_cons_of_mem _ h')

theorem dictGetD_nonneg (d : List (String × ℚ)) (k : String)
    (hd : ∀ p ∈ d, 0 ≤ p.2) : 0 ≤ dictGetD d k 0 := by
  induction d with
  | nil => simp [dictGetD]
  | cons p rest ih =>
    by_cases hp : p.1 = k
    · simpa [dictGetD, hp] using hd p (List.mem_cons_self _ _)
    · simp only [dictGetD, hp, if_false]
      exact ih (fun q hq => hd q (List.mem_cons_of_mem _ hq))

theorem dictGet?_dictSet_self {β : Type} (d : List (String × β)) (k : String)
    (v : β) : dictGet? (dictSet d k v) k = some v := by
  induction d with
  | nil => simp [dictSet, dictGet?]
  | cons p rest ih =>
    by_cases hp : p.1 = k
    · simp [dictSet, dictGet?, hp]
    · simp [dictSet, dictGet?, hp, ih]

theorem dictSet_of_not_contains {β : Type} (d : List (String × β)) (k : String)
    (v : β) (h : dictContains d k = false) : dictSet d k v = d ++ [(k, v)] := by
  induction d with
  | nil => simp [dictSet]
  | cons p rest ih =>
    by_cases hp : p.1 = k
    · simp [dictContains, dictGet?, hp] at h
    · simp only [dictContains, dictGet?, hp, if_false] at h
      simp [dictSet, hp, ih h]

theorem dictContains_dictSet_ne {β : Type} (d : List (String × β))
    (k k2 : String) (v : β) (h : k2 ≠ k) :
    dictContains (dictSet d k v) k2 = dictContains d k2 := by
  have hk : ¬ k = k2 := fun hc => h hc.symm
  induction d with
  | nil => simp [dictSet, dictContains, dictGet?, hk]
  | cons p rest ih =>
    by_cases hp : p.1 = k
    · by_cases hp2 : p.1 = k2
      · exact absurd (hp2.symm.trans hp) h
      · simp [dictSet, dictContains, dictGet?, hp, hp2, hk]
    · by_cases hp2 : p.1 = k2
      · simp [dictSet, dictContains, dictGet?, hp, hp2, h]
      · simpa [dictSet, dictContains, dictGet?, hp, hp2] using ih

theorem foldl_dictSet_eq (opts : List String) (f : String → ℚ)
    (acc : List (String × ℚ)) (hnd : opts.Nodup)
    (hdisj : ∀ o ∈ opts, dictContains acc o = false) :
    opts.foldl (fun d o => dictSet d o (f o)) acc
      = acc ++ opts.map (fun o => (o, f o)) := by
  induction opts generalizing acc with
  | nil => simp
  | cons o os ih =>
    have hnd' := (List.nodup_cons.mp hnd).2
    have hno : o ∉ os := (List.nodup_cons.mp hnd).1
    have hstep : dictSet acc o (f o) = acc ++ [(o, f o)] :=
      dictSet_of_not_contains acc o (f o) (hdisj o (List.mem_cons_self _ _))
    have hdisj' : ∀ o' ∈ os, dictContains (dictSet acc o (f o)) o' = false := by
      intro o' ho'
      have hne : o' ≠ o := fun hc => hno (hc ▸ ho')
      rw [dictContains_dictSet_ne acc o o' (f o) hne]
      exact hdisj o' (List.mem_cons_of_mem _ ho')
    calc (o :: os).foldl (fun d o => dictSet d o (f o)) acc
        = os.foldl (fun d o => dictSet d o (f o)) (dictSet acc o (f o)) := rfl
      _ = dictSet acc o (f o) ++ os.map (fun o => (o, f o)) := ih _ hnd' hdisj'
      _ = acc ++ (o :: os).map (fun o => (o, f o)) := by
          rw [hstep]; simp

theorem dictComprehension_eq_map (opts : List String) (f : String → ℚ)
    (hnd : opts.Nodup) :
    dictComprehension opts f = opts.map (fun o => (o, f o)) := by
  have := foldl_dictSet_eq opts f [] hnd (by intro o _; rfl)
  simpa [dictComprehension] using this

theorem list_sum_map_div (l : List String) (g : String → ℚ) (c : ℚ) :
    (l.map (fun o => g o / c)).sum = (l.map g).sum / c := by
  induction l with
  | nil => simp
  | cons o os ih => simp [ih, add_div]

theorem update_with_bet_fields (ms : MarketState) (bet : PredictionBet)
    (ms' : MarketState) (h : update_with_bet ms bet = Except.ok ms') :
    ms'.options = ms.options ∧ ms'.resolved = ms.resolved ∧
    ms'.outcome = ms.outcome ∧ ms'.market_type = ms.market_type ∧
    ms'.event_id = ms.event_id ∧ ms'.range_min = ms.range_min ∧
    ms'.range_max = ms.range_max := by
  unfold update_with_bet at h
  repeat' split at h
  all_goals (try cases h)
  all_goals simp_all

theorem mkMarketState_ok (event_id : String) (market_type : MarketType)
    (question : String) (options : Option (List String))
    (range_min range_max : Option ℚ)
    (total_bets current_prices : List (String × ℚ)) (total_liquidity : ℚ)
    (resolved : Bool) (outcome : Option BetOutcome) (ms : MarketState)
    (h : mkMarketState event_id market_type question options range_min
      range_max total_bets current_prices total_liquidity resolved outcome
      = Except.ok ms) :
    ms = ⟨event_id, market_type, question, options, range_min, range_max,
      total_bets, current_prices, total_liquidity, resolved, outcome⟩ ∧
    (market_type = MarketType.BINARY ∨ market_type = MarketType.CATEGORICAL) ∧
    options ≠ none ∧ options ≠ some [] := by
  unfold mkMarketState at h
  repeat' split at h
  all_goals simp_all
  all_goals tauto

theorem update_with_bet_inv (ms : MarketState) (bet : PredictionBet)
    (ms' : MarketState) (h : update_with_bet ms bet = Except.ok ms')
    (hinv : MarketInv ms) : MarketInv ms' := by
  obtain ⟨l, hopt, hne, hres⟩ := hinv
  obtain ⟨h1, h2, h3, -⟩ := update_with_bet_fields ms bet ms' h
  exact ⟨l, h1 ▸ hopt, hne, fun hr => by
    obtain ⟨s, hs, hmem⟩ := hres (h2 ▸ hr)
    exact ⟨s, h3 ▸ hs, hmem⟩⟩

theorem resolveMarketEntry_resolved (choice : List String → String)
    (ms : MarketState) (h : ms.resolved = true) :
    resolveMarketEntry choice ms = (ms, none) := by
  simp [resolveMarketEntry, h]

theorem resolveMarketEntry_inv (choice : List String → String)
    (ms : MarketState) (hinv : MarketInv ms)
    (hchoice : ∀ l : List String, l ≠ [] → choice l ∈ l) :
    MarketInv (resolveMarketEntry choice ms).1 ∧
    ((resolveMarketEntry choice ms).2 = none →
      (resolveMarketEntry choice ms).1.resolved = true ∧
      outcomeInOptions (resolveMarketEntry choice ms).1) := by
  obtain ⟨l, hopt, hne, hres⟩ := hinv
  by_cases hr : ms.resolved = true
  · rw [resolveMarketEntry_resolved choice ms hr]
    obtain ⟨s, hs, hmem⟩ := hres hr
    exact ⟨⟨l, hopt, hne, hres⟩, fun _ => ⟨hr, s, l, hs, hopt, hmem⟩⟩
  · have hr' : ms.resolved = false := by
      cases hres' : ms.resolved
      · rfl
      · exact absurd hres' hr
    cases l with
    | nil => exact absurd rfl hne
    | cons o os =>
      have hentry : resolveMarketEntry choice ms
          = ({ ms with resolved := true,
                       outcome := some (BetOutcome.str (choice (o :: os))) },
             none) := by
        simp [resolveMarketEntry, hr', hopt]
      rw [hentry]
      refine ⟨⟨o :: os, by simp [hopt], hne, fun _ => ?_⟩, fun _ => ⟨rfl, ?_⟩⟩
      · exact ⟨choice (o :: os), rfl, hchoice _ (by simp)⟩
      · exact ⟨choice (o :: os), o :: os, rfl, by simp [hopt],
          hchoice _ (by simp)⟩

theorem resolveEntries_inv (choice : List String → String)
    (entries : List (String × MarketState))
    (hinv : ∀ p ∈ entries, MarketInv p.2)
    (hchoice : ∀ l : List String, l ≠ [] → choice l ∈ l) :
    (∀ p ∈ (resolveEntries choice entries).1, MarketInv p.2) ∧
    ((resolveEntries choice entries).2 = none →
      ∀ p ∈ (resolveEntries choice entries).1,
        p.2.resolved = true ∧ outcomeInOptions p.2) := by
  induction entries with
  | nil => simp [resolveEntries]
  | cons q rest ih =>
    obtain ⟨k, ms⟩ := q
    have hq := hinv (k, ms) (List.mem_cons_self _ _)
    have hrest : ∀ p ∈ rest, MarketInv p.2 :=
      fun p hp => hinv p (List.mem_cons_of_mem _ hp)
    obtain ⟨hinv1, hok1⟩ := resolveMarketEntry_inv choice ms hq hchoice
    obtain ⟨ihinv, ihok⟩ := ih hrest
    cases herr : (resolveMarketEntry choice ms).2 with
    | some e =>
      have : resolveEntries choice ((k, ms) :: rest)
          = (((k, (resolveMarketEntry choice ms).1) :: rest), some e) := by
        simp only [resolveEntries]
        rw [(by cases hre : resolveMarketEntry choice ms with
              | mk a b => simp_all : resolveMarketEntry choice ms
                = ((resolveMarketEntry choice ms).1, some e))]
      rw [this]
      constructor
      · intro p hp
        rcases List.mem_cons.mp hp with h | h
        · exact h ▸ hinv1
        · exact hrest p h
      · intro hc
        simp at hc
    | none =>
      have hsplit : resolveEntries choice ((k, ms) :: rest)
          = ((k, (resolveMarketEntry choice ms).1) :: (resolveEntries choice rest).1,
             (resolveEntries choice rest).2) := by
        simp only [resolveEntries]
        rw [(by cases hre : resolveMarketEntry choice ms with
              | mk a b => simp_all : resolveMarketEntry choice ms
                = ((resolveMarketEntry choice ms).1, none))]
      rw [hsplit]
      constructor
      · intro p hp
        rcases List.mem_cons.mp hp with h | h
        · exact h ▸ hinv1
        · exact ihinv p h
      · intro hc p hp
        rcases List.mem_cons.mp hp with h | h
        · exact h ▸ hok1 herr
        · exact ihok hc p h

theorem sameExceptMarkets_refl (m : Mechanism) : SameExceptMarkets m m :=
  ⟨rfl, rfl, rfl, rfl, rfl, rfl, rfl⟩

theorem sameExceptMarkets_trans {m m' m'' : Mechanism}
    (h1 : SameExceptMarkets m m') (h2 : SameExceptMarkets m' m'') :
    SameExceptMarkets m m'' := by
  obtain ⟨a1, b1, c1, d1, e1, f1, g1⟩ := h1
  obtain ⟨a2, b2, c2, d2, e2, f2, g2⟩ := h2
  exact ⟨a2.trans a1, b2.trans b1, c2.trans c1, d2.trans d1, e2.trans e1,
    f2.trans f1, g2.trans g1⟩

theorem initialize_market_ok (m : Mechanism) (cfg : MarketConfig)
    (m' : Mechanism) (h : initialize_market m cfg = Except.ok m') :
    ∃ mt ms, parseMarketType cfg.market_type = Except.ok mt ∧
      mkMarketState (cfg.name.getD "default_market") mt cfg.market
        (some cfg.outcomes) none none [] cfg.initial_prices
        (cfg.initial_liquidity.getD m.initial_liquidity) false none
        = Except.ok ms ∧
      m' = { m with
             markets := dictSet m.markets (cfg.name.getD "default_market") ms } := by
  unfold initialize_market at h
  split at h
  · cases h
  · split at h
    · cases h
    · rename_i mt1 hmt1 ms1 hms1
      exact ⟨_, _, mt1, hms1, (Except.ok.inj h).symm⟩

theorem initialize_market_same (m : Mechanism) (cfg : MarketConfig)
    (m' : Mechanism) (h : initialize_market m cfg = Except.ok m') :
    SameExceptMarkets m m' := by
  obtain ⟨mt, ms, -, -, hm⟩ := initialize_market_ok m cfg m' h
  rw [hm]
  exact ⟨rfl, rfl, rfl, rfl, rfl, rfl, rfl⟩

theorem ensureMarket_same (m : Mechanism) (eid : String) (m1 : Mechanism)
    (h : ensureMarket m eid = Except.ok m1) : SameExceptMarkets m m1 := by
  unfold ensureMarket at h
  split at h
  · cases h; exact sameExceptMarkets_refl m
  · split at h
    · exact initialize_market_same _ _ _ h
    · cases h

theorem betStep_same (m : Mechanism) (bet : PredictionBet) :
    SameExceptMarkets m (betStep m bet).1 := by
  unfold betStep
  split
  · exact sameExceptMarkets_refl m
  · split
    · exact sameExceptMarkets_refl m
    · rename_i m1 hm1
      have h1 := ensureMarket_same m bet.event_id m1 hm1
      split
      · exact h1
      · split
        · exact h1
        · exact sameExceptMarkets_trans h1 ⟨rfl, rfl, rfl, rfl, rfl, rfl, rfl⟩

theorem processBets_same (m : Mechanism) (l : List (String × PredictionBet))
    (acc : List (String × PredictionBet)) :
    SameExceptMarkets m (processBets m l acc).1 := by
  induction l generalizing m acc with
  | nil => exact sameExceptMarkets_refl m
  | cons e rest ih =>
    obtain ⟨aid, bet⟩ := e
    have hb := betStep_same m bet
    cases hbs : betStep m bet with
    | mk m' err =>
      rw [hbs] at hb
      cases err with
      | some e =>
        have hres : processBets m ((aid, bet) :: rest) acc = (m', Except.error e) := by
          simp [processBets, hbs]
        rw [hres]
        exact hb
      | none =>
        have hpb : processBets m ((aid, bet) :: rest) acc
            = processBets m' rest (dictSet acc aid bet) := by
          simp [processBets, hbs]
        rw [hpb]
        exact sameExceptMarkets_trans hb (ih m' (dictSet acc aid bet))

theorem processBets_append (m : Mechanism)
    (l1 l2 : List (String × PredictionBet))
    (acc : List (String × PredictionBet)) :
    processBets m (l1 ++ l2) acc
      = (match processBets m l1 acc with
         | (m1, Except.ok acc1) => processBets m1 l2 acc1
         | (m1, Except.error e) => (m1, Except.error e)) := by
  induction l1 generalizing m acc with
  | nil => simp [processBets]
  | cons e rest ih =>
    obtain ⟨aid, bet⟩ := e
    cases hbs : betStep m bet with
    | mk m' err =>
      cases err with
      | some e => simp [processBets, hbs]
      | none => simp [processBets, hbs, ih]

theorem mem_of_dictGet? {β : Type} (d : List (String × β)) (k : String) (v : β)
    (h : dictGet? d k = some v) : (k, v) ∈ d := by
  induction d with
  | nil => simp [dictGet?] at h
  | cons p rest ih =>
    by_cases hp : p.1 = k
    · simp only [dictGet?, hp, if_true, Option.some.injEq] at h
      have hpv : p = (k, v) := by
        cases p
        simp_all
      rw [← hpv]
      exact List.mem_cons_self _ _
    · simp only [dictGet?, hp, if_false] at h
      exact List.mem_cons_of_mem _ (ih h)

theorem dictSet_inv (d : List (String × MarketState)) (k : String)
    (v : MarketState) (hd : ∀ p ∈ d, MarketInv p.2) (hv : MarketInv v) :
    ∀ p ∈ dictSet d k v, MarketInv p.2 := by
  intro p hp
  rcases mem_dictSet d k v p hp with h | h
  · rw [h]; exact hv
  · exact hd p h

theorem initialize_market_inv (m : Mechanism) (cfg : MarketConfig)
    (m' : Mechanism) (h : initialize_market m cfg = Except.ok m')
    (hm : MechInv m) : MechInv m' := by
  obtain ⟨mt, ms, -, hms, hm'⟩ := initialize_market_ok m cfg m' h
  obtain ⟨hfields, -, -, hne⟩ := mkMarketState_ok _ _ _ _ _ _ _ _ _ _ _ _ hms
  have hinv : MarketInv ms := by
    refine ⟨cfg.outcomes, by rw [hfields], ?_, ?_⟩
    · intro hc
      exact hne (by rw [hc])
    · intro hr
      rw [hfields] at hr
      simp at hr
  rw [hm']
  exact dictSet_inv m.markets _ ms hm hinv

theorem ensureMarket_inv (m : Mechanism) (eid : String) (m1 : Mechanism)
    (h : ensureMarket m eid = Except.ok m1) (hm : MechInv m) : MechInv m1 := by
  unfold ensureMarket at h
  split at h
  · cases h; exact hm
  · split at h
    · exact initialize_market_inv _ _ _ h hm
    · cases h

theorem betStep_inv (m : Mechanism) (bet : PredictionBet) (hm : MechInv m) :
    MechInv (betStep m bet).1 := by
  unfold betStep
  split
  · exact hm
  · split
    · exact hm
    · rename_i m1 hm1
      have h1 := ensureMarket_inv m bet.event_id m1 hm1 hm
      split
      · exact h1
      · split
        · exact h1
        · rename_i xo ms hms xu ms' hupd
          intro p hp
          exact dictSet_inv m1.markets bet.event_id ms' h1
            (update_with_bet_inv ms bet ms' hupd
              (h1 _ (mem_of_dictGet? _ _ _ hms))) p hp

theorem processBets_inv (m : Mechanism) (l : List (String × PredictionBet))
    (acc : List (String × PredictionBet)) (hm : MechInv m) :
    MechInv (processBets m l acc).1 := by
  induction l generalizing m acc with
  | nil => exact hm
  | cons e rest ih =>
    obtain ⟨aid, bet⟩ := e
    have hb := betStep_inv m bet hm
    cases hbs : betStep m bet with
    | mk m' err =>
      rw [hbs] at hb
      cases err with
      | some e =>
        have hres : processBets m ((aid, bet) :: rest) acc = (m', Except.error e) := by
          simp [processBets, hbs]
        rw [hres]
        exact hb
      | none =>
        have hpb : processBets m ((aid, bet) :: rest) acc
            = processBets m' rest (dictSet acc aid bet) := by
          simp [processBets, hbs]
        rw [hpb]
        exact ih m' (dictSet acc aid bet) hb

theorem stepFinish_frame (choice : List String → String) (m3 : Mechanism) :
    (stepFinish choice m3).1.current_round = m3.current_round ∧
    (stepFinish choice m3).1.max_rounds = m3.max_rounds ∧
    (stepFinish choice m3).1.round_summaries = m3.round_summaries := by
  unfold stepFinish
  by_cases hdone : m3.current_round ≥ m3.max_rounds
  · rw [if_pos hdone]
    cases hre : resolveEntries choice m3.markets with
    | mk mkts err => cases err <;> simp
  · rw [if_neg hdone]
    simp

theorem stepFinish_inv (choice : List String → String) (m3 : Mechanism)
    (hm : MechInv m3)
    (hchoice : ∀ l : List String, l ≠ [] → choice l ∈ l) :
    MechInv (stepFinish choice m3).1 := by
  unfold stepFinish
  by_cases hdone : m3.current_round ≥ m3.max_rounds
  · rw [if_pos hdone]
    have hre2 := (resolveEntries_inv choice m3.markets hm hchoice).1
    cases hre : resolveEntries choice m3.markets with
    | mk mkts err =>
      rw [hre] at hre2
      cases err with
      | some e => intro p hp; exact hre2 p hp
      | none => intro p hp; exact hre2 p hp
  · rw [if_neg hdone]
    intro p hp
    exact hm p hp

theorem stepFinish_ok_char (choice : List String → String) (m3 : Mechanism)
    (res : StepResult) (h : (stepFinish choice m3).2 = Except.ok res) :
    res.done = decide (m3.current_round ≥ m3.max_rounds) ∧
    res.market_states = (stepFinish choice m3).1.markets := by
  unfold stepFinish at h ⊢
  by_cases hdone : m3.current_round ≥ m3.max_rounds
  · rw [if_pos hdone] at h ⊢
    cases hre : resolveEntries choice m3.markets with
    | mk mkts err =>
      rw [hre] at h
      cases err with
      | some e => simp at h
      | none =>
        have hres := Except.ok.inj (show Except.ok
          ({ done := decide (m3.current_round ≥ m3.max_rounds),
             observations := createObservations m3, round := m3.current_round,
             market_states := mkts } : StepResult) = Except.ok res from h)
        rw [← hres]
        exact ⟨rfl, rfl⟩
  · rw [if_neg hdone] at h ⊢
    have hres := Except.ok.inj (show Except.ok
      ({ done := decide (m3.current_round ≥ m3.max_rounds),
         observations := createObservations m3, round := m3.current_round,
         market_states := m3.markets } : StepResult) = Except.ok res from h)
    rw [← hres]
    exact ⟨rfl, rfl⟩

theorem stepFinish_resolves (choice : List String → String) (m3 : Mechanism)
    (res : StepResult) (hm : MechInv m3)
    (hchoice : ∀ l : List String, l ≠ [] → choice l ∈ l)
    (h : (stepFinish choice m3).2 = Except.ok res)
    (hend : m3.current_round ≥ m3.max_rounds) :
    ∀ p ∈ (stepFinish choice m3).1.markets,
      p.2.resolved = true ∧ outcomeInOptions p.2 := by
  unfold stepFinish at h ⊢
  rw [if_pos hend] at h ⊢
  have hre2 := (resolveEntries_inv choice m3.markets hm hchoice).2
  cases hre : resolveEntries choice m3.markets with
  | mk mkts err =>
    rw [hre] at hre2
    rw [hre] at h
    cases err with
    | some e => simp at h
    | none =>
      intro p hp
      exact hre2 rfl p hp

theorem stepMech_frame (choice : List String → String) (m : Mechanism)
    (batch : List (String × PredictionBet)) :
    (stepMech choice m batch).1.current_round = m.current_round + 1 ∧
    (stepMech choice m batch).1.max_rounds = m.max_rounds := by
  unfold stepMech
  dsimp only
  have hsame := processBets_same
    { m with current_round := m.current_round + 1, last_action := some batch }
    batch []
  cases hpb : processBets
      { m with current_round := m.current_round + 1, last_action := some batch }
      batch [] with
  | mk m2 r =>
    rw [hpb] at hsame
    obtain ⟨h1, h2, -, -, -, -, -⟩ := hsame
    cases r with
    | error e => exact ⟨h2, h1⟩
    | ok acc =>
      have hf := stepFinish_frame choice
        { m2 with round_summaries := m2.round_summaries ++ [acc] }
      exact ⟨hf.1.trans h2, hf.2.1.trans h1⟩

theorem stepMech_inv (choice : List String → String) (m : Mechanism)
    (batch : List (String × PredictionBet)) (hm : MechInv m)
    (hchoice : ∀ l : List String, l ≠ [] → choice l ∈ l) :
    MechInv (stepMech choice m batch).1 := by
  unfold stepMech
  dsimp only
  have hpinv := processBets_inv
    { m with current_round := m.current_round + 1, last_action := some batch }
    batch [] hm
  cases hpb : processBets
      { m with current_round := m.current_round + 1, last_action := some batch }
      batch [] with
  | mk m2 r =>
    rw [hpb] at hpinv
    cases r with
    | error e => exact hpinv
    | ok acc =>
      exact stepFinish_inv choice
        { m2 with round_summaries := m2.round_summaries ++ [acc] } hpinv hchoice

theorem stepMech_ok_char (choice : List String → String) (m : Mechanism)
    (batch : List (String × PredictionBet)) (res : StepResult)
    (h : (stepMech choice m batch).2 = Except.ok res) :
    res.done = decide (m.current_round + 1 ≥ m.max_rounds) ∧
    res.market_states = (stepMech choice m batch).1.markets := by
  unfold stepMech at h ⊢
  dsimp only at h ⊢
  have hsame := processBets_same
    { m with current_round := m.current_round + 1, last_action := some batch }
    batch []
  cases hpb : processBets
      { m with current_round := m.current_round + 1, last_action := some batch }
      batch [] with
  | mk m2 r =>
    rw [hpb] at hsame h
    obtain ⟨h1, h2, -, -, -, -, -⟩ := hsame
    dsimp only at h1 h2
    cases r with
    | error e => simp at h
    | ok acc =>
      have hchar := stepFinish_ok_char choice
        { m2 with round_summaries := m2.round_summaries ++ [acc] } res h
      constructor
      · rw [hchar.1]
        simp [h1, h2]
      · rw [hchar.2]

theorem stepMech_resolves (choice : List String → String) (m : Mechanism)
    (batch : List (String × PredictionBet)) (res : StepResult)
    (hm : MechInv m)
    (hchoice : ∀ l : List String, l ≠ [] → choice l ∈ l)
    (h : (stepMech choice m batch).2 = Except.ok res)
    (hend : m.current_round + 1 ≥ m.max_rounds) :
    ∀ p ∈ (stepMech choice m batch).1.markets,
      p.2.resolved = true ∧ outcomeInOptions p.2 := by
  unfold stepMech at h ⊢
  dsimp only at h ⊢
  have hsame := processBets_same
    { m with current_round := m.current_round + 1, last_action := some batch }
    batch []
  have hpinv := processBets_inv
    { m with current_round := m.current_round + 1, last_action := some batch }
    batch [] hm
  cases hpb : processBets
      { m with current_round := m.current_round + 1, last_action := some batch }
      batch [] with
  | mk m2 r =>
    rw [hpb] at hsame hpinv h
    obtain ⟨h1, h2, -, -, -, -, -⟩ := hsame
    dsimp only at h1 h2
    cases r with
    | error e => simp at h
    | ok acc =>
      exact stepFinish_resolves choice
        { m2 with round_summaries := m2.round_summaries ++ [acc] } res hpinv
        hchoice h (by dsimp only; omega)

theorem runSteps_state (choice : List String → String) (m : Mechanism)
    (bs : List (List (String × PredictionBet))) (hm : MechInv m)
    (hchoice : ∀ l : List String, l ≠ [] → choice l ∈ l) :
    (runSteps choice m bs).1.current_round = m.current_round + bs.length ∧
    (runSteps choice m bs).1.max_rounds = m.max_rounds ∧
    MechInv (runSteps choice m bs).1 := by
  induction bs generalizing m with
  | nil => exact ⟨rfl, rfl, hm⟩
  | cons b rest ih =>
    cases rest with
    | nil =>
      have hf := stepMech_frame choice m b
      exact ⟨hf.1, hf.2, stepMech_inv choice m b hm hchoice⟩
    | cons b2 rest2 =>
      have hstep : runSteps choice m (b :: b2 :: rest2)
          = runSteps choice (stepMech choice m b).1 (b2 :: rest2) := rfl
      rw [hstep]
      have hf := stepMech_frame choice m b
      obtain ⟨ihc, ihm, ihinv⟩ :=
        ih (stepMech choice m b).1 (stepMech_inv choice m b hm hchoice)
      refine ⟨?_, ihm.trans hf.2, ihinv⟩
      rw [ihc, hf.1]
      simp
      omega

theorem runSteps_final (choice : List String → String) (m : Mechanism)
    (bs : List (List (String × PredictionBet))) (res : StepResult)
    (hm : MechInv m)
    (hchoice : ∀ l : List String, l ≠ [] → choice l ∈ l)
    (hne : bs ≠ [])
    (hlen : m.current_round + bs.length ≥ m.max_rounds)
    (h : (runSteps choice m bs).2 = Except.ok res) :
    res.done = true ∧
    ∀ p ∈ (runSteps choice m bs).1.markets,
      p.2.resolved = true ∧ outcomeInOptions p.2 := by
  induction bs generalizing m with
  | nil => exact absurd rfl hne
  | cons b rest ih =>
    cases rest with
    | nil =>
      have hlen' : m.current_round + 1 ≥ m.max_rounds := by simpa using hlen
      have hchar := stepMech_ok_char choice m b res h
      constructor
      · rw [hchar.1]
        exact decide_eq_true hlen'
      · exact stepMech_resolves choice m b res hm hchoice h hlen'
    | cons b2 rest2 =>
      have hstep : runSteps choice m (b :: b2 :: rest2)
          = runSteps choice (stepMech choice m b).1 (b2 :: rest2) := rfl
      rw [hstep] at h ⊢
      have hf := stepMech_frame choice m b
      refine ih (stepMech choice m b).1
        (stepMech_inv choice m b hm hchoice) (by simp) ?_ h
      rw [hf.1, hf.2]
      simp at hlen ⊢
      omega

theorem list_single_le_sum_map (l : List String) (g : String → ℚ)
    (hnn : ∀ o ∈ l, 0 ≤ g o) (k : String) (hk : k ∈ l) :
    g k ≤ (l.map g).sum := by
  induction l with
  | nil => cases hk
  | cons o os ih =>
    rcases List.mem_cons.mp hk with h | h
    · subst h
      have : 0 ≤ (os.map g).sum := by
        apply List.sum_nonneg
        intro x hx
        obtain ⟨o', ho', rfl⟩ := List.mem_map.mp hx
        exact hnn o' (List.mem_cons_of_mem _ ho')
      simp only [List.map_cons, List.sum_cons]
      linarith
    · have hrec := ih (fun o' ho' => hnn o' (List.mem_cons_of_mem _ ho')) h
      have : 0 ≤ g o := hnn o (List.mem_cons_self _ _)
      simp only [List.map_cons, List.sum_cons]
      linarith

theorem update_with_bet_price_normalization (ms : MarketState)
    (bet : PredictionBet) (ms' : MarketState) (opts : List String)
    (key : String) (s : ℚ)
    (hmt : ¬ ms.market_type = MarketType.SCALAR)
    (hopts : ms.options = some opts)
    (hnd : opts.Nodup)
    (hkey : betOutcomeKey bet.outcome = some key)
    (hstake : bet.stake = some s)
    (hpos : 0 < s)
    (hnn : ∀ p ∈ ms.total_bets, 0 ≤ p.2)
    (h : update_with_bet ms bet = Except.ok ms') :
    dictGetD ms'.total_bets key 0 = dictGetD ms.total_bets key 0 + s ∧
    (∀ p ∈ ms'.current_prices, 0 ≤ p.2) ∧
    (ms'.current_prices.map Prod.snd).sum = 1 := by
  unfold update_with_bet at h
  rw [if_neg hmt, hopts] at h
  dsimp only at h
  rw [hkey] at h
  dsimp only at h
  by_cases hmem : key ∈ opts
  · rw [if_pos hmem, hstake] at h
    dsimp only at h
    have hX := (Except.ok.inj h).symm
    subst hX
    set tb := dictSet ms.total_bets key (dictGetD ms.total_bets key 0 + s) with htb
    have htbnn : ∀ o : String, 0 ≤ dictGetD tb o 0 := by
      intro o
      by_cases ho : o = key
      · subst ho
        rw [htb, dictGetD_dictSet_self]
        have := dictGetD_nonneg ms.total_bets o hnn
        linarith
      · rw [htb, dictGetD_dictSet_ne _ _ _ _ _ ho]
        exact dictGetD_nonneg ms.total_bets o hnn
    have hkeyval : dictGetD tb key 0 = dictGetD ms.total_bets key 0 + s := by
      rw [htb, dictGetD_dictSet_self]
    have htot : 0 < (opts.map (fun o => dictGetD tb o 0)).sum := by
      have hle := list_single_le_sum_map opts (fun o => dictGetD tb o 0)
        (fun o _ => htbnn o) key hmem
      have := dictGetD_nonneg ms.total_bets key hnn
      have hle' : dictGetD ms.total_bets key 0 + s
          ≤ (opts.map (fun o => dictGetD tb o 0)).sum := by
        rw [← hkeyval]
        exact hle
      linarith
    refine ⟨hkeyval, ?_, ?_⟩
    · intro p hp
      simp only [if_pos htot] at hp
      rw [dictComprehension_eq_map _ _ hnd] at hp
      obtain ⟨o, ho, rfl⟩ := List.mem_map.mp hp
      exact div_nonneg (htbnn o) (le_of_lt htot)
    · simp only [if_pos htot]
      rw [dictComprehension_eq_map _ _ hnd, List.map_map]
      have hcomp : (Prod.snd ∘ fun o => (o, dictGetD tb o 0 /
          (opts.map (fun o => dictGetD tb o 0)).sum))
          = fun o => dictGetD tb o 0 / (opts.map (fun o => dictGetD tb o 0)).sum := rfl
      rw [hcomp, list_sum_map_div]
      exact div_self (ne_of_gt htot)
  · rw [if_neg hmem] at h
    cases h

/-- C1, amended: `step` processes the batch in order and raises at the first
invalid action — if every action before position k applies cleanly and the
action at position k raises inside `betStep` (for example an invalid
outcome), the whole step call fails with that error, no round summary is
appended, and the actions after position k are not applied (the markets are
exactly those after the failing action's processing). -/
theorem step_aborts_at_first_invalid_bet (choice : List String → String)
    (m : Mechanism) (pre post : List (String × PredictionBet)) (aid : String)
    (bad : PredictionBet) (ra : List (String × PredictionBet)) (e : String)
    (hpre : (processBets
      { m with current_round := m.current_round + 1,
               last_action := some (pre ++ (aid, bad) :: post) } pre []).2
      = Except.ok ra)
    (hbad : (betStep (processBets
      { m with current_round := m.current_round + 1,
               last_action := some (pre ++ (aid, bad) :: post) } pre []).1
      bad).2 = some e) :
    (stepMech choice m (pre ++ (aid, bad) :: post)).2 = Except.error e ∧
    (stepMech choice m (pre ++ (aid, bad) :: post)).1.round_summaries
      = m.round_summaries ∧
    (stepMech choice m (pre ++ (aid, bad) :: post)).1.markets
      = (betStep (processBets
          { m with current_round := m.current_round + 1,
                   last_action := some (pre ++ (aid, bad) :: post) } pre []).1
          bad).1.markets := by
  unfold stepMech
  dsimp only
  rw [processBets_append]
  cases hpb : processBets
      { m with current_round := m.current_round + 1,
               last_action := some (pre ++ (aid, bad) :: post) } pre [] with
  | mk m1 r =>
    rw [hpb] at hpre hbad
    dsimp only at hpre hbad
    subst hpre
    have hsame1 := processBets_same
      { m with current_round := m.current_round + 1,
               last_action := some (pre ++ (aid, bad) :: post) } pre []
    rw [hpb] at hsame1
    cases hbs : betStep m1 bad with
    | mk m'' oe =>
      rw [hbs] at hbad
      dsimp only at hbad
      subst hbad
      have hsame2 := betStep_same m1 bad
      rw [hbs] at hsame2
      have hrun : processBets m1 ((aid, bad) :: post) ra = (m'', Except.error e) := by
        simp [processBets, hbs]
      dsimp only
      rw [hrun]
      refine ⟨rfl, ?_, rfl⟩
      exact (hsame2.2.2.2.1).trans hsame1.2.2.2.1

theorem find_eq_of_perm {l1 l2 : List (Nat × Option RawOutput)}
    (h : l1.Perm l2) :
    (l1.map Prod.fst).Nodup → ∀ i : Nat,
      l1.find? (fun p => p.1 = i) = l2.find? (fun p => p.1 = i) := by
  induction h with
  | nil => intro _ i; rfl
  | cons x hperm ih =>
    intro hnd i
    rw [List.map_cons] at hnd
    have hnd' := (List.nodup_cons.mp hnd).2
    simp only [List.find?]
    by_cases hx : x.1 = i
    · simp [hx]
    · simp only [hx, decide_False]
      exact ih hnd' i
  | swap x y l =>
    intro hnd i
    rw [List.map_cons, List.map_cons] at hnd
    have hxy : y.1 ≠ x.1 := fun hc =>
      (List.nodup_cons.mp hnd).1 (by rw [hc]; exact List.mem_cons_self _ _)
    simp only [List.find?]
    by_cases hy : y.1 = i <;> by_cases hx : x.1 = i
    · exact absurd (hy.trans hx.symm) hxy
    · simp [hy, hx]
    · simp [hy, hx]
    · simp [hy, hx]
  | trans h1 h2 ih1 ih2 =>
    intro hnd i
    have hnd2 := ((h1.map Prod.fst).nodup_iff).mp hnd
    exact (ih1 hnd i).trans (ih2 hnd2 i)

theorem alignByRoster_perm (n : Nat) (a1 a2 : List (Nat × Option RawOutput))
    (h : a1.Perm a2) (hnd : (a1.map Prod.fst).Nodup) :
    alignByRoster n a1 = alignByRoster n a2 := by
  unfold alignByRoster
  apply List.map_congr_left
  intro i _
  rw [find_eq_of_perm h hnd i]

theorem resolveMarket_fields (ms : MarketState) (oc : BetOutcome)
    (ms' : MarketState) (h : resolveMarket ms oc = Except.ok ms') :
    ms' = { ms with resolved := true, outcome := some oc } := by
  unfold resolveMarket at h
  repeat' split at h
  all_goals (try cases h)
  all_goals simp_all

theorem resolveMarket_idem (ms : MarketState) (oc : BetOutcome)
    (ms' : MarketState) (h : resolveMarket ms oc = Except.ok ms') :
    resolveMarket ms' oc = Except.ok ms' := by
  have hf := resolveMarket_fields ms oc ms' h
  subst hf
  unfold resolveMarket at h ⊢
  repeat' split at h
  all_goals (try cases h)
  all_goals simp_all

theorem headD_mem (l : List String) (h : l ≠ []) : l.headD "" ∈ l := by
  cases l with
  | nil => exact absurd rfl h
  | cons a t => simp [List.headD]

/-- C1, counterexample: a BET whose outcome is not a declared option makes
`step` raise (`update_with_bet` raises `ValueError` and `step` has no
handler): the step call returns the error instead of dropping the single
action, no round summary is appended, and the later valid bet of agent a3 is
not applied (only agent a1's earlier bet reached the market). -/
theorem step_invalid_bet_cex :
    (stepMech c1choice c1mech c1batch).2
      = Except.error "ValueError: Outcome is not a valid option" ∧
    (stepMech c1choice c1mech c1batch).1.round_summaries = [] ∧
    (dictGet? (stepMech c1choice c1mech c1batch).1.markets "m1").map
      MarketState.total_bets = some [("Yes", 10)] := by
  refine ⟨rfl, rfl, ?_⟩
  norm_num [stepMech, stepFinish, processBets, betStep, ensureMarket,
    update_with_bet, dictGet?, dictGetD, dictSet, dictContains, c1mech,
    c1market, c1batch, c1betYes, c1betBad, c1betNo, betOutcomeKey,
    dictComprehension, createObservations, resolveEntries,
    resolveMarketEntry, c1choice]

theorem step_aborts_at_first_invalid_bet_witness :
    (stepMech c1choice c1mech
      ([("a1", c1betYes)] ++ ("a2", c1betBad) :: [("a3", c1betNo)])).2
      = Except.error "ValueError: Outcome is not a valid option" ∧
    (stepMech c1choice c1mech
      ([("a1", c1betYes)] ++ ("a2", c1betBad) :: [("a3", c1betNo)])).1.round_summaries
      = c1mech.round_summaries ∧
    (stepMech c1choice c1mech
      ([("a1", c1betYes)] ++ ("a2", c1betBad) :: [("a3", c1betNo)])).1.markets
      = (betStep (processBets
          { c1mech with current_round := c1mech.current_round + 1,
                        last_action := some ([("a1", c1betYes)]
                          ++ ("a2", c1betBad) :: [("a3", c1betNo)]) }
          [("a1", c1betYes)] []).1 c1betBad).1.markets :=
  step_aborts_at_first_invalid_bet c1choice c1mech [("a1", c1betYes)]
    [("a3", c1betNo)] "a2" c1betBad [("a1", c1betYes)]
    "ValueError: Outcome is not a valid option" rfl rfl

/-- C2: roster-order determinism.  The per-agent raw outputs arrive as
completion events in arbitrary order; the Phase Runner places them into
roster slots (`alignByRoster`), `_process_agent_actions` builds the batch by
iterating the roster, and `step` reduces the batch in that order.  Two
deliveries of the same set of outputs (a permutation with distinct roster
indices) therefore give identical action-phase results: the same batch, the
same appended round summary, and the same final `MarketState`s (the
`run_action_phase` result contains the whole mechanism, so its
`round_summaries` and `markets` coincide across the two runs). -/
theorem roster_order_determinism (choice : List String → String)
    (m : Mechanism) (agents : List String) (cfgName : String) (n : Nat)
    (a1 a2 : List (Nat × Option RawOutput))
    (hperm : a1.Perm a2) (hnd : (a1.map Prod.fst).Nodup) :
    run_action_phase choice m agents cfgName (some (alignByRoster n a1))
      = run_action_phase choice m agents cfgName (some (alignByRoster n a2)) := by
  rw [alignByRoster_perm n a1 a2 hperm hnd]

theorem roster_order_determinism_witness :
    run_action_phase c2choice c2mech ["a1", "a2"] "m1"
      (some (alignByRoster 2 c2arr1))
      = run_action_phase c2choice c2mech ["a1", "a2"] "m1"
        (some (alignByRoster 2 c2arr2)) :=
  roster_order_determinism c2choice c2mech ["a1", "a2"] "m1" 2 c2arr1 c2arr2
    (List.Perm.swap (1, some RawOutput.empty) (0, none) []) (by decide)

/-- C3: termination.  Starting from round 0 with `max_rounds = N`, after
exactly N `step` calls whose last call returns normally, the returned `done`
flag is true and every market held by the mechanism is resolved with an
outcome drawn from its declared options.  The hypotheses ask that every
initial market is valid (`MarketInv`: non-empty declared options, resolved
markets already carry an outcome among their options) and that the
`random.choice` oracle picks a member of its non-empty argument. -/
theorem max_rounds_terminates_and_resolves (choice : List String → String)
    (m : Mechanism) (N : Nat) (bs : List (List (String × PredictionBet)))
    (res : StepResult)
    (hchoice : ∀ l : List String, l ≠ [] → choice l ∈ l)
    (hm : MechInv m)
    (hstart : m.current_round = 0) (hmax : m.max_rounds = N)
    (hlen : bs.length = N) (hpos : 0 < N)
    (h : (runSteps choice m bs).2 = Except.ok res) :
    res.done = true ∧
    ∀ p ∈ (runSteps choice m bs).1.markets,
      p.2.resolved = true ∧ outcomeInOptions p.2 := by
  refine runSteps_final choice m bs res hm hchoice ?_ (by omega) h
  intro hc
  rw [hc] at hlen
  simp at hlen
  omega

theorem max_rounds_terminates_and_resolves_witness :
    c3res.done = true ∧
    ∀ p ∈ (runSteps c3choice c3mech [[]]).1.markets,
      p.2.resolved = true ∧ outcomeInOptions p.2 :=
  max_rounds_terminates_and_resolves c3choice c3mech 1 [[]] c3res
    (fun l hl => headD_mem l hl)
    (by
      intro p hp
      have hp' : p = ("m1", c3market) := by simpa [c3mech] using hp
      subst hp'
      exact ⟨["Yes", "No"], rfl, by simp, fun hr => absurd hr (by decide)⟩)
    rfl rfl rfl (by decide) rfl

theorem update_with_bet_price_normalization_witness :
    dictGetD c4result.total_bets "Yes" 0
      = dictGetD c4market.total_bets "Yes" 0 + 40 ∧
    (∀ p ∈ c4result.current_prices, 0 ≤ p.2) ∧
    (c4result.current_prices.map Prod.snd).sum = 1 :=
  update_with_bet_price_normalization c4market c4bet c4result ["Yes", "No"]
    "Yes" 40 (by decide) rfl (by decide) rfl rfl (by norm_num)
    (by simp [c4market]) rfl

/-- C5, counterexample: a failing storage insert is not absorbed.
`process_round_results` re-raises the persistence error, and
`run_market_round` re-raises it again, so the round call itself fails — the
error is propagated, contradicting the claim that it is logged and never
propagated. -/
theorem persistence_error_cex :
    process_round_results c5ops true false
      = Except.error "database connection lost" ∧
    run_market_round (Except.ok ()) (Except.ok (c5mech, c5res)) (Except.ok ())
      (process_round_results c5ops true false)
      = Except.error "database connection lost" :=
  ⟨rfl, rfl⟩

/-- C5, amended: a persistence failure is logged and then re-raised —
whenever `process_round_results` fails, the perception and action phases
having succeeded, `run_market_round` fails with the same error: the failure
unwinds the round instead of being absorbed (only the reflection phase
swallows its own errors). -/
theorem persistence_error_propagates (ops : StorageOps) (hA hT : Bool)
    (e : String) (ap : Mechanism × StepResult) (refl0 : Except String Unit)
    (h : process_round_results ops hA hT = Except.error e) :
    run_market_round (Except.ok ()) (Except.ok ap) refl0
      (process_round_results ops hA hT) = Except.error e := by
  unfold run_market_round
  rw [h]

theorem persistence_error_propagates_witness :
    run_market_round (Except.ok ()) (Except.ok (c5mech, c5res)) (Except.ok ())
      (process_round_results c5ops false true)
      = Except.error "database connection lost" :=
  persistence_error_propagates c5ops false true "database connection lost"
    (c5mech, c5res) (Except.ok ()) rfl

/-- C6: with one failed request (slot `none`) and one agent returning a
well-formed BET payload, `_process_agent_actions` does not substitute a HOLD
entry for the failed agent — it raises: the surviving agent's action
construction fails (`Outcome` is undefined and `market_type` is a required
field the constructor call omits), the HOLD fallback in the `except`
handlers raises the same `ValidationError` itself, and the exception escapes
the loop, aborting the round before any batch is built.  When the other
agents return no usable content at all, the function completes but the
failed agent is simply omitted: the returned batch is empty, with no
HOLD/default entry. -/
theorem failed_agent_no_hold_entry_bug :
    processAgentActions ["a1", "a2"]
      (some [none, some (RawOutput.jsonObj c6content)]) "m1"
      = Except.error "ValidationError: market_type field required" ∧
    processAgentActions ["a1", "a2"]
      (some [none, some RawOutput.empty]) "m1"
      = Except.ok ([] : List (String × PredictionBet)) :=
  ⟨rfl, rfl⟩

/-- C7, counterexample: `MarketState.resolve` has no guard on `resolved` —
resolving the already-resolved market `c7once` a second time with a
different valid outcome overwrites `outcome` ("Yes" becomes "No"), so the
outcome field is not set exactly once. -/
theorem resolve_twice_changes_outcome_cex :
    resolveMarket c7market (BetOutcome.str "Yes") = Except.ok c7once ∧
    c7once.resolved = true ∧
    resolveMarket c7once (BetOutcome.str "No") = Except.ok c7twice ∧
    c7twice.outcome ≠ c7once.outcome :=
  ⟨rfl, rfl, rfl, by decide⟩

/-- C7, amended: resolution is idempotent only where the code guards it.
The end-of-run resolution inside `step` skips a market that is already
resolved and leaves it unchanged, and calling `MarketState.resolve` again
with the same outcome leaves the state unchanged; but `resolve` called with
a different valid outcome overwrites `outcome` (see the counterexample). -/
theorem resolution_idempotent_amended :
    (∀ (choice : List String → String) (ms : MarketState),
      ms.resolved = true → resolveMarketEntry choice ms = (ms, none)) ∧
    (∀ (ms : MarketState) (oc : BetOutcome) (ms' : MarketState),
      resolveMarket ms oc = Except.ok ms' →
      resolveMarket ms' oc = Except.ok ms') :=
  ⟨resolveMarketEntry_resolved, resolveMarket_idem⟩

theorem resolution_idempotent_amended_witness :
    resolveMarketEntry c7wchoice c7wresolved = (c7wresolved, none) ∧
    resolveMarket c7wonce (BetOutcome.str "Yes") = Except.ok c7wonce :=
  ⟨resolution_idempotent_amended.1 c7wchoice c7wresolved rfl,
   resolution_idempotent_amended.2 c7wm0 (BetOutcome.str "Yes") c7wonce rfl⟩

/-- C8: evaluation at the failing input.  A BET for unknown event
`market_b` with a configuration available triggers the lazy initialization,
but `initialize_market` stores the new market under the configuration name
`market_a`; the following lookup `self.markets[bet.event_id]` then raises
`KeyError`, so the bet is not applied and step raises — contrary to the
claim that the market for the referenced event id is created and the bet
applied without raising.  Without a configuration, step raises the
`ValueError` that the claim correctly describes as fatal. -/
theorem lazy_init_keyerror_bug :
    (stepMech c8choice c8mech [("a1", c8bet)]).2 = Except.error "KeyError" ∧
    (stepMech c8choice c8mech [("a1", c8bet)]).1.markets.map Prod.fst
      = ["market_a"] ∧
    (stepMech c8choice c8mechNoCfg [("a1", c8bet)]).2
      = Except.error "ValueError: No market configuration found for event" :=
  ⟨rfl, rfl, rfl⟩

/-- C9, counterexample: a freshly created market does not get uniform
prices.  `initialize_market` copies the configured `initial_prices` into
`current_prices`; with the configuration prices 7/10 and 3/10 the freshly
created zero-stake market has price 7/10 for "Yes", not
1/len(options) = 1/2. -/
theorem fresh_market_uniform_price_cex :
    initialize_market c9mech c9cfg
      = Except.ok { c9mech with markets := [("market_a", c9market)] } ∧
    dictGetD c9market.current_prices "Yes" 0 = 7/10 ∧
    c9market.total_bets = [] ∧
    ¬ ((7 : ℚ)/10 = 1/2) := by
  refine ⟨rfl, rfl, rfl, by norm_num⟩

/-- C9, amended: a freshly created market carries the configured
`initial_prices` (uniform only if the configuration says so), an empty
`total_bets` dict, and the configured liquidity; the uniform
`1/len(options)` assignment exists only inside `update_with_bet` for the
zero-total-stake branch. -/
theorem fresh_market_prices_from_config (m : Mechanism) (cfg : MarketConfig)
    (m' : Mechanism) (ms : MarketState)
    (h : initialize_market m cfg = Except.ok m')
    (hms : dictGet? m'.markets (cfg.name.getD "default_market") = some ms) :
    ms.current_prices = cfg.initial_prices ∧ ms.total_bets = [] ∧
    ms.total_liquidity = cfg.initial_liquidity.getD m.initial_liquidity := by
  obtain ⟨mt, ms0, -, hmk, hm'⟩ := initialize_market_ok m cfg m' h
  obtain ⟨hfields, -, -, -⟩ := mkMarketState_ok _ _ _ _ _ _ _ _ _ _ _ _ hmk
  rw [hm'] at hms
  dsimp only at hms
  rw [dictGet?_dictSet_self] at hms
  have hms' := Option.some.inj hms
  rw [← hms', hfields]
  exact ⟨rfl, rfl, rfl⟩

theorem fresh_market_prices_from_config_witness :
    c9market.current_prices = c9cfg.initial_prices ∧
    c9market.total_bets = [] ∧
    c9market.total_liquidity = c9cfg.initial_liquidity.getD c9mech.initial_liquidity :=
  fresh_market_prices_from_config c9mech c9cfg
    { c9mech with markets := [("market_a", c9market)] } c9market rfl rfl

/-- C10: the `validate_market_type` validator makes SCALAR construction
impossible — `mkMarketState` with market type SCALAR always returns an
error, and any successfully constructed `MarketState` has market type
BINARY or CATEGORICAL (hence never SCALAR, so the SCALAR branches of
`update_with_bet` and `resolveMarket`, both guarded by
`market_type = SCALAR`, are unreachable for constructed values). -/
theorem market_state_never_scalar :
    (∀ (eid q : String) (opts : Option (List String)) (rmin rmax : Option ℚ)
      (tb cp : List (String × ℚ)) (tl : ℚ) (rs : Bool)
      (oc : Option BetOutcome) (ms : MarketState),
      mkMarketState eid MarketType.SCALAR q opts rmin rmax tb cp tl rs oc
        ≠ Except.ok ms) ∧
    (∀ (eid : String) (mt : MarketType) (q : String)
      (opts : Option (List String)) (rmin rmax : Option ℚ)
      (tb cp : List (String × ℚ)) (tl : ℚ) (rs : Bool)
      (oc : Option BetOutcome) (ms : MarketState),
      mkMarketState eid mt q opts rmin rmax tb cp tl rs oc = Except.ok ms →
      (ms.market_type = MarketType.BINARY ∨
       ms.market_type = MarketType.CATEGORICAL) ∧
      ms.market_type ≠ MarketType.SCALAR) := by
  constructor
  · intro eid q opts rmin rmax tb cp tl rs oc ms hc
    obtain ⟨-, hbc, -, -⟩ := mkMarketState_ok _ _ _ _ _ _ _ _ _ _ _ _ hc
    rcases hbc with h | h <;> cases h
  · intro eid mt q opts rmin rmax tb cp tl rs oc ms h
    obtain ⟨hfields, hbc, -, -⟩ := mkMarketState_ok _ _ _ _ _ _ _ _ _ _ _ _ h
    have hmt : ms.market_type = mt := by rw [hfields]
    rw [hmt]
    rcases hbc with h' | h'
    · subst h'
      exact ⟨Or.inl rfl, by decide⟩
    · subst h'
      exact ⟨Or.inr rfl, by decide⟩

theorem market_state_never_scalar_witness :
    mkMarketState "m1" MarketType.SCALAR "Will it rain?" (some ["Yes", "No"])
      none none [] [] 0 false none ≠ Except.ok c10market ∧
    (c10market.market_type = MarketType.BINARY ∨
     c10market.market_type = MarketType.CATEGORICAL) :=
  ⟨market_state_never_scalar.1 "m1" "Will it rain?" (some ["Yes", "No"])
    none none [] [] 0 false none c10market,
   (market_state_never_scalar.2 "m1" MarketType.BINARY "Will it rain?"
    (some ["Yes", "No"]) none none [] [] 0 false none c10market rfl).1⟩

end PredictionMarkets
